import Mathlib

/-!
Shallow embedding of the danmaku2ass converter (Go) and proofs about its
claimed behaviour.

Modelling conventions:
* Go `float64` values are modelled as exact rationals (`ℚ`); every float
  operation appearing in the embedded code (addition, multiplication,
  division by constants, `math.Floor`, conversion `int(x)`) is modelled by
  the corresponding exact operation.
* Go `int`/`int64` are modelled as `ℤ`; loop indices as `ℕ` cast to `ℤ`.
* Go strings are modelled as Lean `String`/`List Char`; the few byte-level
  operations (`len`, `strings.HasPrefix`, `strings.Contains`) act here on
  characters, with UTF-8 byte lengths computed explicitly where the source
  measures bytes.
* `fmt.Sscanf` is modelled verb by verb following the documented scanning
  semantics: `%s` reads a maximal run of non-space characters after
  skipping spaces, `%d`/`%x`/`%f` read sign and digit runs after skipping
  spaces (the `%f` model covers the sign/integer/fraction decimal forms
  that danmaku timelines use), and a literal character in the format must
  match the next input character exactly.
* `sort.Slice` promises only that the slice afterwards is a permutation of
  its input ordered by the supplied comparison; it is explicitly not
  guaranteed to be stable.  It is therefore modelled by the relation
  `goSortSlice` admitting every comparison-sorted permutation.
* File handles are modelled as an explicit state `FileState` (contents
  plus read position); `os.File.Read` and `Seek` become pure state
  transformers.
-/

namespace Danmaku2Ass

/-- Canonical comment record (`parser.Comment` in the source). -/
structure Comment where
  Timeline : ℚ
  Timestamp : ℤ
  No : ℤ
  Text : String
  Position : ℤ
  Color : ℤ
  Size : ℚ
  Height : ℚ
  Width : ℚ
deriving DecidableEq

/-- Width heuristic `calculateLength`: the number of runes of the text. -/
def calculateLength (text : String) : ℚ := (text.length : ℚ)

/-- One step of `strings.Replace(text, "/n", "\n", -1)`: leftmost-first,
non-overlapping replacement of the two-character marker by a newline. -/
def replaceSlashNAux : List Char → List Char
  | [] => []
  | '/' :: 'n' :: rest => '\n' :: replaceSlashNAux rest
  | c :: rest => c :: replaceSlashNAux rest

/-- `strings.Replace(text, "/n", "\n", -1)` on strings. -/
def replaceSlashN (s : String) : String := String.mk (replaceSlashNAux s.data)

/-- `strings.Count(text, "\n")`: number of newline characters. -/
def countNL (s : String) : ℕ := s.data.count '\n'

/-- UTF-8 size in bytes of one character, as Go `len` counts it. -/
def charUtf8Size (c : Char) : ℕ :=
  if c.toNat ≤ 0x7F then 1
  else if c.toNat ≤ 0x7FF then 2
  else if c.toNat ≤ 0xFFFF then 3
  else 4

/-- Go `len(s)` on a string: its UTF-8 byte length. -/
def goLen (s : String) : ℕ := (s.data.map charUtf8Size).sum

/-- Decimal digit run to a natural number. -/
def digitsVal (ds : List Char) : ℕ := ds.foldl (fun a c => a * 10 + (c.toNat - 48)) 0

/-- Scan of the `%f` verb: skip spaces, optional sign, decimal digits with
an optional fraction part.  Returns the value and the unconsumed input. -/
def scanFloat (cs : List Char) : Option (ℚ × List Char) :=
  let cs1 := cs.dropWhile Char.isWhitespace
  let signed : Bool × List Char :=
    match cs1 with
    | '-' :: r => (true, r)
    | '+' :: r => (false, r)
    | _ => (false, cs1)
  let cs2 := signed.2
  let ip := cs2.takeWhile Char.isDigit
  let cs3 := cs2.drop ip.length
  let fractioned : List Char × List Char :=
    match cs3 with
    | '.' :: r => (r.takeWhile Char.isDigit, r.drop (r.takeWhile Char.isDigit).length)
    | _ => ([], cs3)
  let fp := fractioned.1
  if ip.isEmpty && fp.isEmpty then none
  else
    let mag : ℚ := (digitsVal ip : ℚ) + (digitsVal fp : ℚ) / ((10 : ℚ) ^ fp.length)
    some (if signed.1 then -mag else mag, fractioned.2)

/-- Scan of the `%d` verb: skip spaces, optional sign, decimal digits. -/
def scanInt (cs : List Char) : Option (ℤ × List Char) :=
  let cs1 := cs.dropWhile Char.isWhitespace
  let signed : Bool × List Char :=
    match cs1 with
    | '-' :: r => (true, r)
    | '+' :: r => (false, r)
    | _ => (false, cs1)
  let ds := signed.2.takeWhile Char.isDigit
  if ds.isEmpty then none
  else some ((if signed.1 then -1 else 1) * (digitsVal ds : ℤ), signed.2.drop ds.length)

/-- Scan of the `%s` verb: skip spaces, then read a maximal nonempty run of
non-space characters. -/
def scanToken (cs : List Char) : Option (List Char × List Char) :=
  let cs1 := cs.dropWhile Char.isWhitespace
  let tok := cs1.takeWhile (fun c => !c.isWhitespace)
  if tok.isEmpty then none
  else some (tok, cs1.dropWhile (fun c => !c.isWhitespace))

/-- A literal character in a scan format must match the next input
character exactly. -/
def expectChar (c : Char) (cs : List Char) : Option (List Char) :=
  match cs with
  | c2 :: rest => if c2 = c then some rest else none
  | [] => none

/-- `fmt.Sscanf(p, "%f,%s,%d,%d,%d", ...)` as used on the Bilibili `p`
attribute: time, mode token, size, color, timestamp. -/
def sscanfBiliP (p : String) : Option (ℚ × String × ℤ × ℤ × ℤ) :=
  (scanFloat p.data).bind fun fr =>
  (expectChar ',' fr.2).bind fun r2 =>
  (scanToken r2).bind fun tr =>
  (expectChar ',' tr.2).bind fun r4 =>
  (scanInt r4).bind fun sr =>
  (expectChar ',' sr.2).bind fun r6 =>
  (scanInt r6).bind fun cr =>
  (expectChar ',' cr.2).bind fun r8 =>
  (scanInt r8).bind fun tsr =>
  some (fr.1, String.mk tr.1, sr.1, cr.1, tsr.1)

/-- One record of the Bilibili XML document (`BilibiliComment`): the `p`
attribute string and the text content. -/
structure BilibiliComment where
  P : String
  Content : String
deriving DecidableEq

/-- Bilibili mode token to canonical position. -/
def biliModeMap (mode : String) : Option ℤ :=
  if mode = "1" then some 0
  else if mode = "4" then some 2
  else if mode = "5" then some 1
  else if mode = "6" then some 3
  else none

/-- Loop of `parseBilibili`: the index `i` ranges over all source records,
skipped or not, and is the value stored in the `No` field. -/
def parseBilibiliAux (fontSize : ℚ) : ℕ → List BilibiliComment → List Comment
  | _, [] => []
  | i, r :: rest =>
    match sscanfBiliP r.P with
    | none => parseBilibiliAux fontSize (i + 1) rest
    | some (timeline, mode, size, color, timestamp) =>
      match biliModeMap mode with
      | none => parseBilibiliAux fontSize (i + 1) rest
      | some position =>
        let textSize := (size : ℚ) * fontSize / 25
        let text := replaceSlashN r.Content
        { Timeline := timeline, Timestamp := timestamp, No := (i : ℤ), Text := text,
          Position := position, Color := color, Size := textSize,
          Height := ((countNL text : ℚ) + 1) * textSize,
          Width := calculateLength text * textSize } :: parseBilibiliAux fontSize (i + 1) rest

/-- `parseBilibili` over the decoded record list. -/
def parseBilibili (recs : List BilibiliComment) (fontSize : ℚ) : List Comment :=
  parseBilibiliAux fontSize 0 recs

/-- After `%s` has consumed a maximal non-space run, the remaining input is
empty or starts with a space, so a literal comma can never match. -/
theorem expectComma_after_token (cs : List Char) :
    expectChar ',' (cs.dropWhile (fun c => !c.isWhitespace)) = none := by
  induction cs with
  | nil => rfl
  | cons c rest ih =>
    by_cases h : c.isWhitespace
    · simp only [List.dropWhile, h, Bool.not_true, expectChar]
      have : c ≠ ',' := by
        intro hc
        rw [hc] at h
        exact absurd h (by decide)
      simp [this]
    · simpa only [List.dropWhile, Bool.not_eq_true', eq_self_iff_true,
        Bool.not_eq_false, h, if_true, Bool.not_false] using ih

/-- A successful `%s` scan leaves input on which a literal comma fails. -/
theorem scanToken_then_comma {cs : List Char} {tr : List Char × List Char}
    (h : scanToken cs = some tr) : expectChar ',' tr.2 = none := by
  unfold scanToken at h
  dsimp only at h
  split at h
  · exact Option.noConfusion h
  · rw [← Option.some.inj h]
    exact expectComma_after_token _

/-- The scan `"%f,%s,%d,%d,%d"` can never succeed: `%s` consumes every
comma up to the next space or the end of input, so the comma that the
format requires right after it is never found. -/
theorem sscanfBiliP_eq_none (p : String) : sscanfBiliP p = none := by
  unfold sscanfBiliP
  cases hf : scanFloat p.data with
  | none => rfl
  | some fr =>
    simp only [Option.some_bind]
    cases hc : expectChar ',' fr.2 with
    | none => rfl
    | some r2 =>
      simp only [Option.some_bind]
      cases ht : scanToken r2 with
      | none => rfl
      | some tr =>
        simp only [Option.some_bind]
        rw [scanToken_then_comma ht]
        rfl

/-- Consequently the Bilibili record loop emits nothing from any input. -/
theorem parseBilibiliAux_eq_nil (fontSize : ℚ) :
    ∀ (i : ℕ) (recs : List BilibiliComment), parseBilibiliAux fontSize i recs = [] := by
  intro i recs
  induction recs generalizing i with
  | nil => rfl
  | cons r rest ih =>
    unfold parseBilibiliAux
    rw [sscanfBiliP_eq_none]
    exact ih _

/-- `parseBilibili` returns the empty list on every input. -/
theorem parseBilibili_eq_nil (recs : List BilibiliComment) (fontSize : ℚ) :
    parseBilibili recs fontSize = [] :=
  parseBilibiliAux_eq_nil fontSize 0 recs

/-- One decoded record of the AcFun JSON array (`AcfunComment`). -/
structure AcfunComment where
  time : ℚ
  mode : ℤ
  size : ℤ
  color : ℤ
  content : String
deriving DecidableEq

/-- AcFun mode code to canonical position. -/
def acfunModeMap (mode : ℤ) : Option ℤ :=
  if mode = 1 then some 0
  else if mode = 4 then some 2
  else if mode = 5 then some 1
  else if mode = 6 then some 3
  else none

/-- Loop of `parseAcfun`: the index `i` ranges over all source records,
skipped or not, and is the value stored in the `No` field. -/
def parseAcfunAux (fontSize : ℚ) : ℕ → List AcfunComment → List Comment
  | _, [] => []
  | i, c :: rest =>
    match acfunModeMap c.mode with
    | none => parseAcfunAux fontSize (i + 1) rest
    | some position =>
      let textSize := (c.size : ℚ) * fontSize / 25
      let text := replaceSlashN c.content
      { Timeline := c.time, Timestamp := 0, No := (i : ℤ), Text := text,
        Position := position, Color := c.color, Size := textSize,
        Height := ((countNL text : ℚ) + 1) * textSize,
        Width := calculateLength text * textSize } :: parseAcfunAux fontSize (i + 1) rest

/-- `parseAcfun` over the decoded record list. -/
def parseAcfun (recs : List AcfunComment) (fontSize : ℚ) : List Comment :=
  parseAcfunAux fontSize 0 recs

/-- One decoded record of the Niconico XML document (`NiconicoComment`). -/
structure NiconicoComment where
  vpos : ℤ
  no : ℤ
  date : ℤ
  userId : String
  mail : String
  content : String
deriving DecidableEq

/-- The per-record mutable style accumulator of `parseNiconico`
(position, color, size local variables). -/
structure NicoStyle where
  position : ℤ
  color : ℤ
  size : ℚ
deriving DecidableEq

/-- Hexadecimal digit in the sense of the `%x` verb. -/
def isHexDigitChar (c : Char) : Bool :=
  c.isDigit || (97 ≤ c.toNat && c.toNat ≤ 102) || (65 ≤ c.toNat && c.toNat ≤ 70)

/-- Value of one hexadecimal digit. -/
def hexDigitVal (c : Char) : ℕ :=
  if c.isDigit then c.toNat - 48
  else if 97 ≤ c.toNat && c.toNat ≤ 102 then c.toNat - 87
  else if 65 ≤ c.toNat && c.toNat ≤ 70 then c.toNat - 55
  else 0

/-- `fmt.Sscanf(cmd, "%x", &color)`: skip spaces, optional sign, then the
longest nonempty run of hexadecimal digits becomes the value; trailing
unconsumed input is not an error. -/
def goScanHex (s : String) : Option ℤ :=
  let cs := s.data.dropWhile Char.isWhitespace
  let signed : Bool × List Char :=
    match cs with
    | '-' :: r => (true, r)
    | '+' :: r => (false, r)
    | _ => (false, cs)
  let ds := signed.2.takeWhile isHexDigitChar
  if ds.isEmpty then none
  else some ((if signed.1 then -1 else 1) *
    (ds.foldl (fun a c => a * 16 + hexDigitVal c) 0 : ℕ))

/-- `strings.Split(s, " ")`: split at every single space, keeping empty
fields. -/
def splitSpace : List Char → List (List Char)
  | [] => [[]]
  | ' ' :: rest => [] :: splitSpace rest
  | c :: rest =>
    match splitSpace rest with
    | [] => [[c]]
    | t :: ts => (c :: t) :: ts

/-- One iteration of the `mail` command switch in `parseNiconico`. -/
def applyNicoCmd (fontSize : ℚ) (st : NicoStyle) (cmd : String) : NicoStyle :=
  if cmd = "ue" then { st with position := 1 }
  else if cmd = "shita" then { st with position := 2 }
  else if cmd = "big" then { st with size := fontSize * (1.5 : ℚ) }
  else if cmd = "small" then { st with size := fontSize * (0.5 : ℚ) }
  else if goLen cmd = 6 then
    match goScanHex cmd with
    | some v => { st with color := v }
    | none => st
  else st

/-- Left-to-right application of all mail commands. -/
def applyNicoCmds (fontSize : ℚ) (st : NicoStyle) (cmds : List String) : NicoStyle :=
  cmds.foldl (applyNicoCmd fontSize) st

/-- The style a Niconico `mail` attribute produces, starting from the
defaults: position `0` (scroll), color white, size the base font size. -/
def nicoStyleOfMail (fontSize : ℚ) (mail : String) : NicoStyle :=
  applyNicoCmds fontSize { position := 0, color := 0xFFFFFF, size := fontSize }
    ((splitSpace mail.data).map String.mk)

/-- `parseNiconico` over the decoded record list: every record is emitted;
`No` and `Timestamp` come from the record, `vpos` is centiseconds. -/
def parseNiconico (recs : List NiconicoComment) (fontSize : ℚ) : List Comment :=
  recs.map fun c =>
    let st := nicoStyleOfMail fontSize c.mail
    let text := replaceSlashN c.content
    { Timeline := (c.vpos : ℚ) / 100, Timestamp := c.date, No := c.no, Text := text,
      Position := st.position, Color := st.color, Size := st.size,
      Height := ((countNL text : ℚ) + 1) * st.size,
      Width := calculateLength text * st.size }

/-- Format tags (`parser.Format`). -/
inductive Format where
  | Bilibili
  | Niconico
  | Acfun
deriving DecidableEq

/-- `strings.HasPrefix`, modelled on characters. -/
def strStartsWith (s pre : String) : Bool := List.isPrefixOf pre.data s.data

/-- Occurrence of `sub` as a contiguous run anywhere in the list. -/
def listIsInfixOf (sub : List Char) : List Char → Bool
  | [] => List.isPrefixOf sub []
  | c :: rest => List.isPrefixOf sub (c :: rest) || listIsInfixOf sub rest

/-- `strings.Contains`, modelled on characters. -/
def strContains (s sub : String) : Bool := listIsInfixOf sub.data s.data

/-- The classification core of `ProbeFormat`, applied to the string built
from the bytes read at the start of the file. -/
def probeClassify (content : String) : Except String Format :=
  if strStartsWith content "<?xml" then
    if strContains content "<i>" then .ok .Bilibili
    else if strContains content "<chat>" then .ok .Niconico
    else .error "unknown format"
  else if strStartsWith content "[" then .ok .Acfun
  else .error "unknown format"

/-- An open file: its contents and the current read position. -/
structure FileState where
  data : List Char
  pos : ℕ
deriving DecidableEq

/-- `file.Read(buf)` with a buffer of `k` bytes: returns at most `k` bytes
from the current position and advances the position by the amount read. -/
def fileRead (fs : FileState) (k : ℕ) : List Char × FileState :=
  let n := min k (fs.data.length - fs.pos)
  ((fs.data.drop fs.pos).take n, { fs with pos := fs.pos + n })

/-- `file.Seek(p, io.SeekStart)`. -/
def fileSeek (fs : FileState) (p : ℕ) : FileState := { fs with pos := p }

/-- `ProbeFormat`: record the current position, read up to 100 bytes,
classify them, and (via the deferred seek) restore the saved position on
every return path. -/
def ProbeFormat (fs : FileState) : FileState × Except String Format :=
  let curPos := fs.pos
  let rd := fileRead fs 100
  let res := probeClassify (String.mk rd.1)
  (fileSeek rd.2 curPos, res)

/-- An ASS dialogue event (`ass.Event`). -/
structure Event where
  Start : ℚ
  End : ℚ
  Style : String
  Text : String
  MarginL : ℤ
  MarginR : ℤ
  MarginV : ℤ
  Effect : String
deriving DecidableEq

/-- Generator configuration (`ass.Generator`). -/
structure Generator where
  Width : ℤ
  Height : ℤ
  FontName : String
  FontSize : ℚ
  Alpha : ℚ
  DurationStart : ℚ
  MarginStart : ℚ
deriving DecidableEq

/-- The style switch of `generateEvents`: positions 0, 1, 2 get a style;
every other position (including ReverseScroll 3) is dropped. -/
def styleOfPosition (p : ℤ) : Option String :=
  if p = 0 then some "R2L"
  else if p = 1 then some "Top"
  else if p = 2 then some "Bottom"
  else none

/-- `generateEvents`: one event per comment whose position has a style,
with `end = start + DurationStart` and zero margins. -/
def generateEvents (g : Generator) : List Comment → List Event
  | [] => []
  | c :: rest =>
    match styleOfPosition c.Position with
    | none => generateEvents g rest
    | some st =>
      { Start := c.Timeline, End := c.Timeline + g.DurationStart, Style := st,
        Text := c.Text, MarginL := 0, MarginR := 0, MarginV := 0, Effect := "" }
        :: generateEvents g rest

/-- Go conversion `int(x)` on a float: truncation toward zero. -/
def goTrunc (q : ℚ) : ℤ := if 0 ≤ q then ⌊q⌋ else -⌊-q⌋

/-- Hours field of `formatTime`: `int(seconds) / 3600`. -/
def ftHours (s : ℚ) : ℤ := (goTrunc s).tdiv 3600

/-- Minutes field of `formatTime`: `(int(seconds) % 3600) / 60`. -/
def ftMinutes (s : ℚ) : ℤ := ((goTrunc s).tmod 3600).tdiv 60

/-- Seconds field of `formatTime`: `int(seconds) % 60`. -/
def ftSecs (s : ℚ) : ℤ := (goTrunc s).tmod 60

/-- Centiseconds field of `formatTime`:
`int(math.Floor((seconds - math.Floor(seconds)) * 100))`. -/
def ftCentis (s : ℚ) : ℤ := ⌊(s - (⌊s⌋ : ℚ)) * 100⌋

/-- `%02d`: decimal rendering left-padded with zeros to width two. -/
def pad2 (n : ℤ) : String :=
  if 0 ≤ n ∧ n < 10 then "0" ++ toString n else toString n

/-- `formatTime`: render seconds as `H:MM:SS.cc`
(`fmt.Sprintf("%d:%02d:%02d.%02d", ...)`). -/
def formatTime (s : ℚ) : String :=
  toString (ftHours s) ++ ":" ++ pad2 (ftMinutes s) ++ ":" ++ pad2 (ftSecs s)
    ++ "." ++ pad2 (ftCentis s)

/-- One output line of `writeEvents`:
`fmt.Sprintf("Dialogue: 0,%s,%s,%s,,0,0,0,,%s\n", ...)`. -/
def dialogueLine (e : Event) : String :=
  "Dialogue: 0," ++ formatTime e.Start ++ "," ++ formatTime e.End ++ ","
    ++ e.Style ++ ",,0,0,0,," ++ e.Text ++ "\n"

/-- The dialogue lines `writeEvents` writes, in order. -/
def writeEventsLines (events : List Event) : List String := events.map dialogueLine

/-- Comparison-sortedness for the `less` function of `GenerateASS`:
no later element is strictly below an earlier one, i.e. timelines are
non-decreasing. -/
def timelineLE (a b : Comment) : Prop := a.Timeline ≤ b.Timeline

instance : DecidableRel timelineLE := fun a b =>
  inferInstanceAs (Decidable (a.Timeline ≤ b.Timeline))

/-- A comment list in ascending timeline order. -/
def sortedByTimeline (l : List Comment) : Prop := List.Pairwise timelineLE l

instance (l : List Comment) : Decidable (sortedByTimeline l) :=
  inferInstanceAs (Decidable (List.Pairwise timelineLE l))

/-- Contract of `sort.Slice(comments, less)`: afterwards the slice is some
permutation of its input that is sorted for `less`.  Stability is
deliberately not part of the contract. -/
def goSortSlice (input output : List Comment) : Prop :=
  input.Perm output ∧ sortedByTimeline output

/-- `GenerateASS` as observed by the caller: the comment slice passed in is
sorted in place (`postSlice` is its content after the call), and the
dialogue lines written are those of the events generated from the sorted
slice. -/
def generateASSRel (g : Generator) (comments postSlice : List Comment)
    (lines : List String) : Prop :=
  goSortSlice comments postSlice ∧ lines = writeEventsLines (generateEvents g postSlice)

instance : IsTotal Comment timelineLE := ⟨fun a b => le_total a.Timeline b.Timeline⟩

instance : IsTrans Comment timelineLE := ⟨fun _ _ _ h1 h2 => le_trans h1 h2⟩

/-- The input of the end-to-end scenario of the spec: two records whose
attribute strings carry modes 1 and 5, one record with mode 9. -/
def c1records : List BilibiliComment :=
  [{ P := "10.00,1,25,16777215,1000", Content := "first" },
   { P := "20.00,5,25,16777215,1001", Content := "second" },
   { P := "15.00,9,25,16777215,1002", Content := "third" }]

/-- C1: the spec's end-to-end scenario requires two dialogue lines (styles
R2L and Top) from the two supported records; the code emits none, because
the scan format can never match an attribute string: `%s` consumes through
the commas and the literal comma after it then fails.  This contradicts
the parser's stated purpose, so the code, not the claim, is at fault. -/
theorem claim1_bilibili_pipeline_emits_nothing :
    (∀ p : String, sscanfBiliP p = none) ∧
    parseBilibili c1records 48 = [] ∧
    (∀ (g : Generator) (post : List Comment) (lines : List String),
      generateASSRel g (parseBilibili c1records 48) post lines → lines.length = 0) := by
  refine ⟨sscanfBiliP_eq_none, parseBilibili_eq_nil _ _, ?_⟩
  intro g post lines h
  obtain ⟨⟨hperm, _⟩, hlines⟩ := h
  rw [parseBilibili_eq_nil] at hperm
  have hpost : post = [] := hperm.nil_eq.symm
  rw [hpost] at hlines
  rw [hlines]
  rfl

/-- Witness for C1 at the concrete generator and the empty post-state. -/
theorem claim1_witness : ([] : List String).length = 0 := by
  have hrel : generateASSRel ⟨320, 240, "sans", 48, 1, 5, 5⟩
      (parseBilibili c1records 48) [] [] := by
    constructor
    · constructor
      · rw [parseBilibili_eq_nil]
      · exact List.Pairwise.nil
    · rfl
  exact claim1_bilibili_pipeline_emits_nothing.2.2 _ [] [] hrel

/-- Two comments that differ only in their text, with equal timelines. -/
def tieA : Comment :=
  { Timeline := 1, Timestamp := 0, No := 0, Text := "a", Position := 0,
    Color := 16777215, Size := 25, Height := 25, Width := 25 }

/-- Second comment of the tied pair. -/
def tieB : Comment :=
  { Timeline := 1, Timestamp := 0, No := 1, Text := "b", Position := 0,
    Color := 16777215, Size := 25, Height := 25, Width := 25 }

/-- C2 counterexample: the sort used by the synthesizer (`sort.Slice`) may
emit the tied pair in swapped order — the swapped output satisfies
everything the sort guarantees — so preservation of the relative order of
equal-timeline comments does not hold. -/
theorem claim2_counterexample :
    tieA.Timeline = tieB.Timeline ∧ tieA ≠ tieB ∧
      goSortSlice [tieA, tieB] [tieB, tieA] :=
  ⟨rfl, by decide, List.Perm.swap tieB tieA [], by decide⟩

/-- C2 amended: the synthesizer orders the merged comments into some
ascending-timeline permutation of the input (such an output always
exists), but the relative order of equal-timeline comments is not
guaranteed. -/
theorem claim2_sort_contract :
    (∀ l : List Comment, ∃ out, goSortSlice l out) ∧
    (∀ (l out : List Comment), goSortSlice l out →
      out.Perm l ∧ sortedByTimeline out) := by
  constructor
  · intro l
    exact ⟨List.insertionSort timelineLE l,
      (List.perm_insertionSort timelineLE l).symm,
      List.sorted_insertionSort timelineLE l⟩
  · intro l out h
    exact ⟨h.1.symm, h.2⟩

/-- Witness for C2 at a concrete one-element slice. -/
theorem claim2_witness : ([tieA].Perm [tieA]) ∧ sortedByTimeline [tieA] :=
  claim2_sort_contract.2 [tieA] [tieA] ⟨List.Perm.refl _, by decide⟩

/-- C4: the spec says the sequence number of an emitted Bilibili comment is
its index among the successfully parsed records.  In the code the `No`
field is the index in the full source record list (`for i, c := range`),
and, worse, the broken attribute scan means no record is ever parsed, so
the skip-then-parse input that should yield a comment numbered 0 yields no
comment at all. -/
theorem claim4_bilibili_sequence_numbers :
    parseBilibili [{ P := "1.00,9,25,16777215,100", Content := "x" },
      { P := "2.00,1,25,16777215,100", Content := "y" }] 48 = [] ∧
    (∀ (fs : ℚ) (i : ℕ) (r : BilibiliComment) (rest : List BilibiliComment),
      sscanfBiliP r.P = none →
        parseBilibiliAux fs i (r :: rest) = parseBilibiliAux fs (i + 1) rest) := by
  constructor
  · rfl
  · intro fs i r rest h
    conv_lhs => rw [parseBilibiliAux.eq_def]
    simp only [h]

/-- Witness for C4: a record whose attribute string fails the scan is
skipped while the index (the future `No`) still advances. -/
theorem claim4_witness :
    parseBilibiliAux 48 0 [{ P := "abc", Content := "x" }] = parseBilibiliAux 48 1 [] :=
  claim4_bilibili_sequence_numbers.2 48 0 { P := "abc", Content := "x" } [] rfl

/-- C3 counterexample: the color guard measures bytes, not characters.
The token `aa你b` has four characters but six UTF-8 bytes, so it is
attempted as a color and its hexadecimal prefix `aa` overrides the
default white. -/
theorem claim3_counterexample :
    ("aa你b" : String).length = 4 ∧ goLen "aa你b" = 6 ∧
      (nicoStyleOfMail 48 "aa你b").color = 170 ∧ (170 : ℤ) ≠ 0xFFFFFF :=
  ⟨rfl, rfl, rfl, by decide⟩

/-- C3 amended: mail tokens are applied left-to-right with
last-token-wins per attribute; only tokens of exactly six UTF-8 bytes are
attempted as hexadecimal color overrides; defaults are Scroll position,
white color and base size; `ue big` at base 48 gives Top and 72, and
`184` (three bytes) leaves every default in place. -/
theorem claim3_nico_mail_semantics :
    (∀ (fs : ℚ) (st : NicoStyle) (cmd : String), goLen cmd ≠ 6 →
      (applyNicoCmd fs st cmd).color = st.color) ∧
    (∀ (fs : ℚ) (st : NicoStyle) (cmds : List String) (cmd : String),
      applyNicoCmds fs st (cmds ++ [cmd])
        = applyNicoCmd fs (applyNicoCmds fs st cmds) cmd) ∧
    (∀ fs : ℚ, nicoStyleOfMail fs ""
      = { position := 0, color := 0xFFFFFF, size := fs }) ∧
    (nicoStyleOfMail 48 "ue big").position = 1 ∧
    (nicoStyleOfMail 48 "ue big").color = 0xFFFFFF ∧
    (nicoStyleOfMail 48 "ue big").size = 72 ∧
    (nicoStyleOfMail 48 "184").position = 0 ∧
    (nicoStyleOfMail 48 "184").color = 0xFFFFFF ∧
    (nicoStyleOfMail 48 "184").size = 48 := by
  refine ⟨?_, ?_, ?_, rfl, rfl, ?_, rfl, rfl, rfl⟩
  · intro fs st cmd h
    unfold applyNicoCmd
    split_ifs with h1 h2 h3 h4
    · rfl
    · rfl
    · rfl
    · rfl
    · rfl
  · intro fs st cmds cmd
    unfold applyNicoCmds
    rw [List.foldl_append]
    rfl
  · intro fs
    rfl
  · show (48 : ℚ) * (1.5 : ℚ) = 72
    norm_num

/-- Witness for C3 at a concrete style and the three-byte token `184`. -/
theorem claim3_witness :
    (applyNicoCmd 48 { position := 0, color := 16777215, size := 48 } "184").color
      = ({ position := 0, color := 16777215, size := 48 } : NicoStyle).color :=
  claim3_nico_mail_semantics.1 48 { position := 0, color := 16777215, size := 48 } "184"
    (by decide)

/-- Every comment the AcFun loop emits takes its size from some source
record by the `rawSize * fontSize / 25` formula. -/
theorem parseAcfunAux_size (fs : ℚ) :
    ∀ (i : ℕ) (recs : List AcfunComment) (c : Comment),
      c ∈ parseAcfunAux fs i recs → ∃ r ∈ recs, c.Size = (r.size : ℚ) * fs / 25 := by
  intro i recs
  induction recs generalizing i with
  | nil =>
    intro c hc
    rw [parseAcfunAux.eq_def] at hc
    simp at hc
  | cons r rest ih =>
    intro c hc
    rw [parseAcfunAux.eq_def] at hc
    dsimp only at hc
    split at hc
    · obtain ⟨r2, hr2, hsz⟩ := ih _ _ hc
      exact ⟨r2, List.mem_cons_of_mem _ hr2, hsz⟩
    · rcases List.mem_cons.mp hc with hceq | hcrest
      · exact ⟨r, List.mem_cons_self _ _, by rw [hceq]⟩
      · obtain ⟨r2, hr2, hsz⟩ := ih _ _ hcrest
        exact ⟨r2, List.mem_cons_of_mem _ hr2, hsz⟩

/-- Every comment the Bilibili loop emits takes its size from the scanned
size field of some source record by the `rawSize * fontSize / 25`
formula. -/
theorem parseBilibiliAux_size (fs : ℚ) :
    ∀ (i : ℕ) (recs : List BilibiliComment) (c : Comment),
      c ∈ parseBilibiliAux fs i recs →
        ∃ r ∈ recs, ∃ tl mode sz col ts,
          sscanfBiliP r.P = some (tl, mode, sz, col, ts) ∧
            c.Size = (sz : ℚ) * fs / 25 := by
  intro i recs
  induction recs generalizing i with
  | nil =>
    intro c hc
    rw [parseBilibiliAux.eq_def] at hc
    simp at hc
  | cons r rest ih =>
    intro c hc
    rw [parseBilibiliAux.eq_def] at hc
    dsimp only at hc
    split at hc
    · obtain ⟨r2, hr2, rest2⟩ := ih _ _ hc
      exact ⟨r2, List.mem_cons_of_mem _ hr2, rest2⟩
    · rename_i tl mode sz col ts hscan
      split at hc
      · obtain ⟨r2, hr2, rest2⟩ := ih _ _ hc
        exact ⟨r2, List.mem_cons_of_mem _ hr2, rest2⟩
      · rcases List.mem_cons.mp hc with hceq | hcrest
        · exact ⟨r, List.mem_cons_self _ _, tl, mode, sz, col, ts, hscan, by rw [hceq]⟩
        · obtain ⟨r2, hr2, rest2⟩ := ih _ _ hcrest
          exact ⟨r2, List.mem_cons_of_mem _ hr2, rest2⟩

/-- C6: every emitted Comment of the AcFun and Bilibili parsers carries
size `rawSize * baseFontSize / 25`; concretely, an AcFun record of raw
size 50 at base size 20 is emitted with size 40. -/
theorem claim6_size_scaling :
    (∀ (recs : List AcfunComment) (fs : ℚ) (c : Comment), c ∈ parseAcfun recs fs →
      ∃ r ∈ recs, c.Size = (r.size : ℚ) * fs / 25) ∧
    (∀ (recs : List BilibiliComment) (fs : ℚ) (c : Comment), c ∈ parseBilibili recs fs →
      ∃ r ∈ recs, ∃ tl mode sz col ts,
        sscanfBiliP r.P = some (tl, mode, sz, col, ts) ∧ c.Size = (sz : ℚ) * fs / 25) ∧
    (parseAcfun [{ time := 3, mode := 1, size := 50, color := 255, content := "hi" }] 20).map
      Comment.Size = [40] := by
  refine ⟨?_, ?_, ?_⟩
  · intro recs fs c hc
    exact parseAcfunAux_size fs 0 recs c hc
  · intro recs fs c hc
    exact parseBilibiliAux_size fs 0 recs c hc
  · show [((50 : ℤ) : ℚ) * 20 / 25] = [40]
    norm_num

/-- Witness for C6: the parsed form of the spec's concrete record. -/
theorem claim6_witness :
    ∃ r ∈ [({ time := 3, mode := 1, size := 50, color := 255, content := "hi" } :
        AcfunComment)],
      (({ Timeline := 3, Timestamp := 0, No := ((0 : ℕ) : ℤ), Text := "hi", Position := 0,
          Color := 255, Size := ((50 : ℤ) : ℚ) * 20 / 25,
          Height := (((0 : ℕ) : ℚ) + 1) * (((50 : ℤ) : ℚ) * 20 / 25),
          Width := ((2 : ℕ) : ℚ) * (((50 : ℤ) : ℚ) * 20 / 25) } : Comment)).Size
        = (r.size : ℚ) * 20 / 25 :=
  claim6_size_scaling.1 _ 20 _ (List.mem_singleton.mpr rfl)

/-- The four canonical position values. -/
def validPosition (p : ℤ) : Prop := p = 0 ∨ p = 1 ∨ p = 2 ∨ p = 3

/-- The Bilibili mode table only produces canonical positions. -/
theorem biliModeMap_valid {m : String} {p : ℤ} (h : biliModeMap m = some p) :
    validPosition p := by
  unfold biliModeMap at h
  split_ifs at h <;> injection h with h <;> subst h <;> simp [validPosition]

/-- The AcFun mode table only produces canonical positions. -/
theorem acfunModeMap_valid {m p : ℤ} (h : acfunModeMap m = some p) :
    validPosition p := by
  unfold acfunModeMap at h
  split_ifs at h <;> injection h with h <;> subst h <;> simp [validPosition]

/-- One mail command keeps the position or sets it to 1 or 2. -/
theorem applyNicoCmd_position (fs : ℚ) (st : NicoStyle) (cmd : String) :
    (applyNicoCmd fs st cmd).position = st.position ∨
      (applyNicoCmd fs st cmd).position = 1 ∨
      (applyNicoCmd fs st cmd).position = 2 := by
  unfold applyNicoCmd
  split_ifs
  · right; left; rfl
  · right; right; rfl
  · left; rfl
  · left; rfl
  · cases goScanHex cmd
    · left; rfl
    · left; rfl
  · left; rfl

/-- Folding mail commands keeps the position in `{0, 1, 2}`. -/
theorem applyNicoCmds_position (fs : ℚ) :
    ∀ (cmds : List String) (st : NicoStyle),
      (st.position = 0 ∨ st.position = 1 ∨ st.position = 2) →
      ((applyNicoCmds fs st cmds).position = 0 ∨
        (applyNicoCmds fs st cmds).position = 1 ∨
        (applyNicoCmds fs st cmds).position = 2) := by
  intro cmds
  induction cmds with
  | nil => intro st h; exact h
  | cons cmd rest ih =>
    intro st h
    have hnext : (applyNicoCmd fs st cmd).position = 0 ∨
        (applyNicoCmd fs st cmd).position = 1 ∨
        (applyNicoCmd fs st cmd).position = 2 := by
      rcases applyNicoCmd_position fs st cmd with he | h1 | h2
      · rw [he]; exact h
      · exact Or.inr (Or.inl h1)
      · exact Or.inr (Or.inr h2)
    exact ih (applyNicoCmd fs st cmd) hnext

/-- Every comment the AcFun loop emits has a canonical position. -/
theorem parseAcfunAux_position (fs : ℚ) :
    ∀ (i : ℕ) (recs : List AcfunComment) (c : Comment),
      c ∈ parseAcfunAux fs i recs → validPosition c.Position := by
  intro i recs
  induction recs generalizing i with
  | nil =>
    intro c hc
    rw [parseAcfunAux.eq_def] at hc
    simp at hc
  | cons r rest ih =>
    intro c hc
    rw [parseAcfunAux.eq_def] at hc
    dsimp only at hc
    split at hc
    · exact ih _ _ hc
    · rename_i pos hmode
      rcases List.mem_cons.mp hc with hceq | hcrest
      · rw [hceq]
        exact acfunModeMap_valid hmode
      · exact ih _ _ hcrest

/-- Every comment the Bilibili loop emits has a canonical position. -/
theorem parseBilibiliAux_position (fs : ℚ) :
    ∀ (i : ℕ) (recs : List BilibiliComment) (c : Comment),
      c ∈ parseBilibiliAux fs i recs → validPosition c.Position := by
  intro i recs
  induction recs generalizing i with
  | nil =>
    intro c hc
    rw [parseBilibiliAux.eq_def] at hc
    simp at hc
  | cons r rest ih =>
    intro c hc
    rw [parseBilibiliAux.eq_def] at hc
    dsimp only at hc
    split at hc
    · exact ih _ _ hc
    · split at hc
      · exact ih _ _ hc
      · rename_i pos hmode
        rcases List.mem_cons.mp hc with hceq | hcrest
        · rw [hceq]
          exact biliModeMap_valid hmode
        · exact ih _ _ hcrest

/-- C8: every Comment any of the three parsers emits has position 0, 1, 2
or 3, and a record whose mode cannot be mapped contributes no Comment
(shown for the AcFun loop, where the skip still advances the index). -/
theorem claim8_position_invariant :
    (∀ (recs : List BilibiliComment) (fs : ℚ) (c : Comment),
      c ∈ parseBilibili recs fs → validPosition c.Position) ∧
    (∀ (recs : List AcfunComment) (fs : ℚ) (c : Comment),
      c ∈ parseAcfun recs fs → validPosition c.Position) ∧
    (∀ (recs : List NiconicoComment) (fs : ℚ) (c : Comment),
      c ∈ parseNiconico recs fs → validPosition c.Position) ∧
    (∀ (fs : ℚ) (i : ℕ) (r : AcfunComment) (rest : List AcfunComment),
      acfunModeMap r.mode = none →
        parseAcfunAux fs i (r :: rest) = parseAcfunAux fs (i + 1) rest) := by
  refine ⟨?_, ?_, ?_, ?_⟩
  · intro recs fs c hc
    exact parseBilibiliAux_position fs 0 recs c hc
  · intro recs fs c hc
    exact parseAcfunAux_position fs 0 recs c hc
  · intro recs fs c hc
    unfold parseNiconico at hc
    obtain ⟨r, _, hcr⟩ := List.mem_map.mp hc
    have hpos := applyNicoCmds_position fs ((splitSpace r.mail.data).map String.mk)
      { position := 0, color := 0xFFFFFF, size := fs } (Or.inl rfl)
    rw [← hcr]
    rcases hpos with h0 | h1 | h2
    · exact Or.inl h0
    · exact Or.inr (Or.inl h1)
    · exact Or.inr (Or.inr (Or.inl h2))
  · intro fs i r rest h
    conv_lhs => rw [parseAcfunAux.eq_def]
    simp only [h]

/-- Witness for C8: a mode-9 AcFun record is discarded. -/
theorem claim8_witness :
    parseAcfunAux 48 0 [{ time := 1, mode := 9, size := 25, color := 0, content := "x" }]
      = parseAcfunAux 48 1 [] :=
  claim8_position_invariant.2.2.2 48 0
    { time := 1, mode := 9, size := 25, color := 0, content := "x" } [] rfl

/-- The claimed shape of a rendered time code for a given input: bounded
zero-padded minute, second and centisecond fields, hours carrying the
whole remaining magnitude, centiseconds truncated (the floor of the
scaled fractional part, equivalently `⌊100s⌋ mod 100`), rendered as
`H:MM:SS.cc`. -/
def formatTimeShape (s : ℚ) : Prop :=
  0 ≤ ftMinutes s ∧ ftMinutes s < 60 ∧ 0 ≤ ftSecs s ∧ ftSecs s < 60 ∧
  0 ≤ ftCentis s ∧ ftCentis s < 100 ∧
  3600 * ftHours s + 60 * ftMinutes s + ftSecs s = ⌊s⌋ ∧
  ftCentis s = ⌊100 * s⌋ % 100 ∧
  formatTime s = toString (ftHours s) ++ ":" ++ pad2 (ftMinutes s) ++ ":"
    ++ pad2 (ftSecs s) ++ "." ++ pad2 (ftCentis s)

/-- C5: `formatTime` renders non-negative seconds as `H:MM:SS.cc` with
unbounded hours, two-digit minutes/seconds, and truncated centiseconds;
`0`, `3661.5` and `59.999` render as claimed. -/
theorem claim5_formatTime_spec :
    formatTime 0 = "0:00:00.00" ∧
    formatTime (3661.5 : ℚ) = "1:01:01.50" ∧
    formatTime (59.999 : ℚ) = "0:00:59.99" ∧
    (∀ s : ℚ, 0 ≤ s → formatTimeShape s) := by
  refine ⟨?_, ?_, ?_, ?_⟩
  · have hc : ftCentis 0 = 0 := by
      unfold ftCentis
      rw [Int.floor_zero, Int.floor_eq_iff]
      norm_num
    unfold formatTime ftHours ftMinutes ftSecs
    rw [hc]
    rfl
  · have hfl : ⌊(3661.5 : ℚ)⌋ = 3661 := by
      rw [Int.floor_eq_iff]
      norm_num
    have hg : goTrunc (3661.5 : ℚ) = 3661 := by
      unfold goTrunc
      rw [if_pos (by norm_num), hfl]
    have hc : ftCentis (3661.5 : ℚ) = 50 := by
      unfold ftCentis
      rw [hfl, Int.floor_eq_iff]
      norm_num
    unfold formatTime ftHours ftMinutes ftSecs
    rw [hg, hc]
    rfl
  · have hfl : ⌊(59.999 : ℚ)⌋ = 59 := by
      rw [Int.floor_eq_iff]
      norm_num
    have hg : goTrunc (59.999 : ℚ) = 59 := by
      unfold goTrunc
      rw [if_pos (by norm_num), hfl]
    have hc : ftCentis (59.999 : ℚ) = 99 := by
      unfold ftCentis
      rw [hfl, Int.floor_eq_iff]
      norm_num
    unfold formatTime ftHours ftMinutes ftSecs
    rw [hg, hc]
    rfl
  · intro s hs
    have hg : goTrunc s = ⌊s⌋ := if_pos hs
    have h0 : (0 : ℤ) ≤ ⌊s⌋ := Int.floor_nonneg.mpr hs
    have e1 : ftMinutes s = (⌊s⌋ % 3600) / 60 := by
      unfold ftMinutes
      rw [hg, Int.tmod_eq_emod h0 (by norm_num),
        Int.tdiv_eq_ediv (Int.emod_nonneg _ (by norm_num)) (by norm_num)]
    have e2 : ftSecs s = ⌊s⌋ % 60 := by
      unfold ftSecs
      rw [hg, Int.tmod_eq_emod h0 (by norm_num)]
    have e3 : ftHours s = ⌊s⌋ / 3600 := by
      unfold ftHours
      rw [hg, Int.tdiv_eq_ediv h0 (by norm_num)]
    have hcle : ((⌊s⌋ : ℤ) : ℚ) ≤ s := Int.floor_le s
    have hclt : s < ((⌊s⌋ : ℤ) : ℚ) + 1 := Int.lt_floor_add_one s
    have hc0 : 0 ≤ ftCentis s := by
      unfold ftCentis
      apply Int.floor_nonneg.mpr
      have hd : (0 : ℚ) ≤ s - ⌊s⌋ := by linarith
      exact mul_nonneg hd (by norm_num)
    have hc100 : ftCentis s < 100 := by
      unfold ftCentis
      rw [Int.floor_lt]
      have hd : s - ⌊s⌋ < 1 := by linarith
      push_cast
      linarith
    have hcc : ftCentis s = ⌊100 * s⌋ % 100 := by
      unfold ftCentis at hc0 hc100 ⊢
      have hsplit : (100 : ℚ) * s = ((100 * ⌊s⌋ : ℤ) : ℚ) + (s - ⌊s⌋) * 100 := by
        push_cast
        ring
      rw [hsplit, Int.floor_int_add]
      omega
    refine ⟨?_, ?_, ?_, ?_, hc0, hc100, ?_, hcc, rfl⟩
    · rw [e1]; omega
    · rw [e1]; omega
    · rw [e2]; omega
    · rw [e2]; omega
    · rw [e1, e2, e3]; omega

/-- Witness for C5 at three seconds. -/
theorem claim5_witness : formatTimeShape 3 :=
  claim5_formatTime_spec.2.2.2 3 (by decide)

/-- C7 counterexample: a prefix containing both markers.  The claim says a
prefix containing `<chat>` classifies as Niconico, but the code checks
`<i>` first, so this prefix classifies as Bilibili. -/
theorem claim7_counterexample :
    strContains "<?xml?><i><chat>" "<chat>" = true ∧
    probeClassify "<?xml?><i><chat>" = Except.ok Format.Bilibili ∧
    probeClassify "<?xml?><i><chat>" ≠ Except.ok Format.Niconico := by
  refine ⟨rfl, rfl, ?_⟩
  intro h
  rw [show probeClassify "<?xml?><i><chat>" = Except.ok Format.Bilibili from rfl] at h
  exact Format.noConfusion (Except.ok.inj h)

/-- C7 amended: an XML-declaration prefix containing `<i>` classifies as
Bilibili; one containing `<chat>` but not `<i>` classifies as Niconico
(`<i>` takes precedence when both markers appear); a prefix starting with
`[` classifies as AcFun; every other prefix, including an XML prefix with
neither marker, yields the "unknown format" error and no tag. -/
theorem claim7_probe_classification :
    ∀ content : String,
      (strStartsWith content "<?xml" = true → strContains content "<i>" = true →
        probeClassify content = Except.ok Format.Bilibili) ∧
      (strStartsWith content "<?xml" = true → strContains content "<i>" = false →
        strContains content "<chat>" = true →
        probeClassify content = Except.ok Format.Niconico) ∧
      (strStartsWith content "<?xml" = true → strContains content "<i>" = false →
        strContains content "<chat>" = false →
        probeClassify content = Except.error "unknown format") ∧
      (strStartsWith content "<?xml" = false → strStartsWith content "[" = true →
        probeClassify content = Except.ok Format.Acfun) ∧
      (strStartsWith content "<?xml" = false → strStartsWith content "[" = false →
        probeClassify content = Except.error "unknown format") := by
  intro content
  refine ⟨?_, ?_, ?_, ?_, ?_⟩
  · intro h1 h2
    unfold probeClassify
    rw [h1, h2]
    rfl
  · intro h1 h2 h3
    unfold probeClassify
    rw [h1, h2, h3]
    rfl
  · intro h1 h2 h3
    unfold probeClassify
    rw [h1, h2, h3]
    rfl
  · intro h1 h2
    unfold probeClassify
    rw [h1, h2]
    rfl
  · intro h1 h2
    unfold probeClassify
    rw [h1, h2]
    rfl

/-- Witness for C7: a Niconico-marked prefix without the Bilibili marker. -/
theorem claim7_witness :
    probeClassify "<?xml version=a?><chat>" = Except.ok Format.Niconico :=
  (claim7_probe_classification "<?xml version=a?><chat>").2.1 rfl rfl rfl

/-- C9: the probe touches only the bounded 100-byte prefix and, in every
outcome, hands the file back in exactly the state it received it: same
contents, same read position. -/
theorem claim9_probe_restores_position :
    ∀ fs : FileState, (ProbeFormat fs).1 = fs := by
  intro fs
  cases fs
  rfl

/-- Exactly two list contents realize a permutation of a pair. -/
theorem perm_pair_eq {a b : Comment} {l : List Comment} (h : l.Perm [a, b]) :
    l = [a, b] ∨ l = [b, a] := by
  have hlen : l.length = 2 := by simpa using h.length_eq
  match l, hlen with
  | [x, y], _ =>
    have hx : x ∈ [a, b] := h.mem_iff.mp (by simp)
    rcases List.mem_pair.mp hx with rfl | rfl
    · have h2 : [y].Perm [b] := h.cons_inv
      have : y = b := by simpa using List.perm_singleton.mp h2
      exact Or.inl (by rw [this])
    · have hsw : ([a, x] : List Comment).Perm [x, a] := List.Perm.swap x a []
      have h2 : [y].Perm [a] := (h.trans hsw).cons_inv
      have : y = a := by simpa using List.perm_singleton.mp h2
      exact Or.inr (by rw [this])

/-- The two concrete comments of the C10 instance, timelines 5 and 1. -/
def lateC : Comment :=
  { Timeline := 5, Timestamp := 0, No := 0, Text := "late", Position := 0,
    Color := 16777215, Size := 25, Height := 25, Width := 25 }

/-- Early comment of the C10 instance. -/
def earlyC : Comment :=
  { Timeline := 1, Timestamp := 0, No := 1, Text := "early", Position := 0,
    Color := 16777215, Size := 25, Height := 25, Width := 25 }

/-- C10: `GenerateASS` sorts the caller's slice in place: afterwards the
slice holds exactly the same comments, permuted into ascending timeline
order; on an out-of-order two-element slice the result provably differs
from the original order. -/
theorem claim10_generateASS_sorts_in_place :
    (∀ (g : Generator) (comments post : List Comment) (lines : List String),
      generateASSRel g comments post lines →
        post.Perm comments ∧ sortedByTimeline post) ∧
    (∀ (g : Generator) (post : List Comment) (lines : List String),
      generateASSRel g [lateC, earlyC] post lines →
        post = [earlyC, lateC] ∧ post ≠ [lateC, earlyC]) := by
  constructor
  · intro g comments post lines h
    exact ⟨h.1.1.symm, h.1.2⟩
  · intro g post lines h
    obtain ⟨⟨hperm, hsort⟩, _⟩ := h
    have hcases := perm_pair_eq hperm.symm
    have hpost : post = [earlyC, lateC] := by
      rcases hcases with heq | heq
      · exfalso
        rw [heq] at hsort
        have hle : timelineLE lateC earlyC :=
          (List.pairwise_cons.mp hsort).1 earlyC (by simp)
        have : (5 : ℚ) ≤ 1 := hle
        norm_num at this
      · exact heq
    refine ⟨hpost, ?_⟩
    rw [hpost]
    decide

/-- Witness for C10 at the concrete two-element slice. -/
theorem claim10_witness :
    ([earlyC, lateC].Perm [lateC, earlyC]) ∧ sortedByTimeline [earlyC, lateC] :=
  claim10_generateASS_sorts_in_place.1 ⟨320, 240, "sans", 48, 1, 5, 5⟩
    [lateC, earlyC] [earlyC, lateC]
    (writeEventsLines (generateEvents ⟨320, 240, "sans", 48, 1, 5, 5⟩ [earlyC, lateC]))
    ⟨⟨List.Perm.swap earlyC lateC [], by decide⟩, rfl⟩

end Danmaku2Ass
